import Mathlib

/-!
Shallow embedding of the custom reactive state container built in
`src/exercises/custom-state-management.md` (class `ReactiveState<T>` /
`LocalState<T>`).

The container is, in the source:

  private slices$ = new Subject<Partial<T> | Observable<Partial<T>>>();
  private state: Partial<T> = {};                 -- imperative cache
  private state$ = connectable(
    this.slices$.pipe(
      map(coerceObservable), mergeAll(),
      scan((state, slice) => ({ ...state, ...slice }), {} as T),
      tap(s => state = s)),
    { connector: () => new ReplaySubject(1) });
  constructor() {
    const stateSub = this.state$.connect();
    this.effects$.pipe(mergeAll(), takeUntilDestroyed()).subscribe();
    inject(DestroyRef).onDestroy(() => stateSub.unsubscribe()); }

We model JavaScript objects `Partial<T>` as association lists of string
keys (JS object keys are strings) where the LAST binding of a key wins,
so the JS spread `{ ...s, ...p }` is exactly list append.  The container
is a state machine driven by environment events: the public API calls
(`set`, `connect`, `hold`, a new `select()` subscriber, scope
destruction) and the asynchronous callbacks of registered producers
(emission, error, completion).  Producer identifiers denote individual
registered subscriptions: each `connect`/`hold` call registers a fresh
subscription, and an emission/error/completion event is the callback of
one such subscription.  The step function encodes RxJS semantics of the
pipeline above:
  - `Subject.next` delivers only while the subject has its subscriber
    (the single chain subscription made by `connect()` in the
    constructor); after teardown or an error it is a no-op;
  - `mergeAll` subscribes each arriving inner observable immediately and
    forwards inner emissions; an inner ERROR is forwarded downstream and
    terminates the whole merged stream, unsubscribing every other inner
    subscription; an inner COMPLETE merely drops that inner;
  - `scan` folds with `{ ...state, ...slice }` seeded by `{}`;
  - `tap` writes the imperative cache before the value travels on;
  - `connectable` with a `ReplaySubject(1)` connector: one underlying
    subscription to the aggregated chain; subscribers of `select()`
    attach to the replay subject, which hands them the buffered latest
    snapshot first and every later snapshot afterwards;
  - the effects pipeline `effects$.pipe(mergeAll(), ...)` is a second,
    independent merged subscription;
  - `DestroyRef.onDestroy` / `takeUntilDestroyed` unsubscribe both
    pipelines when the owning scope ends.
-/

namespace RxState

/-- A JS object of type `Partial<T>`: an association list of string keys;
the binding written last wins, as in a JS object literal. -/
abbrev Slice (V : Type) := List (String × V)

/-- Field access `obj[k]`: the last binding of `k`, if any. -/
def lookupA {V : Type} (k : String) (l : Slice V) : Option V :=
  l.foldl (fun acc e => if e.1 = k then some e.2 else acc) none

/-- The keys present in a partial object. -/
def keysOf {V : Type} (l : Slice V) : List String :=
  l.map Prod.fst

/-- The reduction step of the aggregator, `scan`'s body:
`(state, slice) => ({ ...state, ...slice })`.  With last-binding-wins
association lists the JS spread is exactly append. -/
def mergeP {V : Type} (s p : Slice V) : Slice V :=
  s ++ p

/-- Environment events driving one container instance.  `set`,
`connect`, `connectKey`, `hold`, `subscribe`, `unsubscribe` and
`destroy` are the public API / lifecycle; `emit`, `emitVal`, `err`,
`compl` are callbacks of a producer registered by `connect`
(`emitVal` for the keyed overload, whose producer emits bare values);
`effErr` / `effCompl` are callbacks of an effect registered by `hold`. -/
inductive Ev (V : Type) where
  | set (p : Slice V)
  | connect (s : Nat)
  | connectKey (k : String) (s : Nat)
  | hold (s : Nat)
  | emit (s : Nat) (p : Slice V)
  | emitVal (s : Nat) (v : V)
  | err (s : Nat)
  | compl (s : Nat)
  | effErr (s : Nat)
  | effCompl (s : Nat)
  | subscribe (i : Nat)
  | unsubscribe (i : Nat)
  | destroy
deriving DecidableEq

/-- One `select()` consumer attached to the replay subject: the
snapshots it has been handed so far (oldest first) and whether it has
received the error notification terminating its subscription. -/
structure Consumer (V : Type) where
  id : Nat
  delivered : List (Slice V)
  terminated : Bool
deriving DecidableEq

/-- The container state.  `cache` is the imperative `this.state` field
kept fresh by `tap`; `replay` is the `ReplaySubject(1)` buffer; `whole`
and `keyed` are the live inner subscriptions of the state `mergeAll`
(for `connect(producer)` and `connect(key, producer)` respectively);
`invoked` records one entry per subscription made to a registered
producer; `effActive` are the live inner subscriptions of the effects
`mergeAll`; `effAlive` says the merged effects subscription itself is
still live; `connected` says the `connect()`-made chain subscription is
still live; `errored` says an error has travelled down the state chain
into the replay subject; `subs` are the `select()` consumers. -/
structure RS (V : Type) where
  cache : Slice V
  replay : Option (Slice V)
  whole : List Nat
  keyed : List (Nat × String)
  invoked : List Nat
  effActive : List Nat
  effAlive : Bool
  connected : Bool
  errored : Bool
  destroyed : Bool
  subs : List (Consumer V)
deriving DecidableEq

/-- The freshly constructed container: empty snapshot, empty replay
buffer, both pipeline subscriptions established by the constructor. -/
def init {V : Type} : RS V :=
  ⟨[], none, [], [], [], [], true, true, false, false, []⟩

/-- The aggregated state chain still processes updates: its single
subscription is in place and no error has terminated it. -/
def RS.live {V : Type} (st : RS V) : Bool :=
  st.connected && !st.errored

/-- One partial update travelling down the chain: `scan` folds it onto
the snapshot, `tap` refreshes the imperative cache, the replay subject
buffers the new snapshot and hands it to every attached consumer. -/
def applyUpdate {V : Type} (st : RS V) (p : Slice V) : RS V :=
  let n := mergeP st.cache p
  { st with
    cache := n
    replay := some n
    subs := st.subs.map (fun c =>
      if c.terminated then c else { c with delivered := c.delivered ++ [n] }) }

/-- The transition function: RxJS semantics of the pipeline for each
environment event (see the module comment). -/
def step {V : Type} (st : RS V) (e : Ev V) : RS V :=
  match e with
  | .set p => if st.live then applyUpdate st p else st
  | .connect s =>
      if st.live then { st with whole := s :: st.whole, invoked := s :: st.invoked }
      else st
  | .connectKey k s =>
      if st.live then { st with keyed := (s, k) :: st.keyed, invoked := s :: st.invoked }
      else st
  | .emit s p =>
      if st.live && st.whole.contains s then applyUpdate st p else st
  | .emitVal s v =>
      if st.live then
        match st.keyed.find? (fun e => e.1 == s) with
        | some e => applyUpdate st [(e.2, v)]
        | none => st
      else st
  | .err s =>
      if st.live && (st.whole.contains s || st.keyed.any (fun e => e.1 == s)) then
        { st with
          errored := true
          whole := []
          keyed := []
          subs := st.subs.map (fun c => { c with terminated := true }) }
      else st
  | .compl s =>
      if st.live then
        { st with
          whole := st.whole.erase s
          keyed := st.keyed.filter (fun e => e.1 != s) }
      else st
  | .hold s =>
      if st.effAlive then { st with effActive := s :: st.effActive } else st
  | .effErr s =>
      if st.effAlive && st.effActive.contains s then
        { st with effAlive := false, effActive := [] }
      else st
  | .effCompl s =>
      if st.effAlive then { st with effActive := st.effActive.erase s } else st
  | .subscribe i =>
      { st with
        subs := st.subs ++
          [⟨i, (match st.replay with | some n => [n] | none => []), st.errored⟩] }
  | .unsubscribe i =>
      { st with subs := st.subs.filter (fun c => c.id != i) }
  | .destroy =>
      { st with
        connected := false
        whole := []
        keyed := []
        effAlive := false
        effActive := []
        destroyed := true }

/-- Run a trace of events from a given state. -/
def runFrom {V : Type} (st : RS V) (tr : List (Ev V)) : RS V :=
  tr.foldl step st

/-- Run a trace of events on a freshly constructed container. -/
def run {V : Type} (tr : List (Ev V)) : RS V :=
  runFrom init tr

/-- JS truthiness of the optional key argument of `get` / `select`:
`undefined` and the empty string are falsy. -/
def jsTruthy (k : Option String) : Bool :=
  match k with
  | none => false
  | some s => !s.isEmpty

/-- `get` exactly as in the source:
`get(k ?: K) { if (k) { return this.state[k]; } return this.state; }` —
dispatch is on the truthiness of the argument. -/
def RS.get {V : Type} (st : RS V) (k : Option String) : Sum (Slice V) (Option V) :=
  if jsTruthy k then Sum.inr (lookupA (k.getD "") st.cache) else Sum.inl st.cache

/-- What a `select` result stream delivers to one consumer, given the
snapshots `ds` the underlying shared stream hands that consumer, as in
the source: `if (!sliceOrKey) { return this.state$; } ...
return this.state$.pipe(map(state => state[sliceOrKey]))` — the same
truthiness dispatch, then a per-snapshot field projection.  (The middle
`typeof sliceOrKey === 'function'` overload, an arbitrary operator
function, is not modelled; no claim concerns it.) -/
def selectEmits {V : Type} (k : Option String) (ds : List (Slice V)) :
    Sum (List (Slice V)) (List (Option V)) :=
  if jsTruthy k then Sum.inr (ds.map (fun s => lookupA (k.getD "") s)) else Sum.inl ds

/-- The value the latest partial containing `k` gives it: left fold over
the partials, a partial containing `k` overwriting the accumulator. -/
def lastVal {V : Type} (k : String) (ps : List (Slice V)) : Option V :=
  ps.foldl (fun acc p => match lookupA k p with | some v => some v | none => acc) none

section Lemmas

variable {V : Type}

theorem lookupA_foldl_acc (k : String) (p : Slice V) (a : Option V) :
    p.foldl (fun acc e => if e.1 = k then some e.2 else acc) a =
      match p.foldl (fun acc e => if e.1 = k then some e.2 else acc) none with
      | some v => some v
      | none => a := by
  induction p generalizing a with
  | nil => rfl
  | cons e p ih =>
    simp only [List.foldl_cons]
    rw [ih (if e.1 = k then some e.2 else a), ih (if e.1 = k then some e.2 else none)]
    cases hl : p.foldl (fun acc e => if e.1 = k then some e.2 else acc) none <;>
      by_cases h : e.1 = k <;> simp [h]

theorem lookupA_append (k : String) (s p : Slice V) :
    lookupA k (s ++ p) =
      match lookupA k p with | some v => some v | none => lookupA k s := by
  unfold lookupA
  rw [List.foldl_append]
  exact lookupA_foldl_acc k p _

theorem lookupA_cons (k : String) (e : String × V) (p : Slice V) :
    lookupA k (e :: p) =
      match lookupA k p with
      | some v => some v
      | none => if e.1 = k then some e.2 else none := by
  unfold lookupA
  simp only [List.foldl_cons]
  exact lookupA_foldl_acc k p _

theorem lookupA_mergeP (k : String) (s p : Slice V) :
    lookupA k (mergeP s p) =
      match lookupA k p with | some v => some v | none => lookupA k s := by
  exact lookupA_append k s p

theorem mem_keysOf_iff (k : String) (p : Slice V) :
    k ∈ keysOf p ↔ (lookupA k p).isSome := by
  induction p with
  | nil => simp [keysOf, lookupA]
  | cons e p ih =>
    rw [lookupA_cons]
    have hk : keysOf (e :: p) = e.1 :: keysOf p := rfl
    rw [hk, List.mem_cons]
    cases hl : lookupA k p
    · rw [hl] at ih
      simp only [Option.isSome_none, Bool.false_eq_true, iff_false] at ih
      by_cases h : e.1 = k
      · simp [h, eq_comm]
      · constructor
        · intro hm
          rcases hm with hm | hm
          · exact absurd hm.symm h
          · exact absurd hm ih
        · intro hs
          rw [if_neg h] at hs
          simp at hs
    · rw [hl] at ih
      simp only [Option.isSome_some, iff_true] at ih
      simp [ih]

theorem applyUpdate_cache (st : RS V) (p : Slice V) :
    (applyUpdate st p).cache = mergeP st.cache p := rfl

theorem applyUpdate_live (st : RS V) (p : Slice V) :
    (applyUpdate st p).live = st.live := rfl

theorem applyUpdate_connected (st : RS V) (p : Slice V) :
    (applyUpdate st p).connected = st.connected := rfl

theorem applyUpdate_errored (st : RS V) (p : Slice V) :
    (applyUpdate st p).errored = st.errored := rfl

/-- Once the chain subscription is gone (`connect()`'s subscription was
torn down on scope end), no later event ever changes the snapshot cache
or resurrects the subscription. -/
theorem dead_step (st : RS V) (e : Ev V)
    (h : st.connected = false) :
    (step st e).cache = st.cache ∧ (step st e).connected = false := by
  have hl : st.live = false := by simp [RS.live, h]
  cases e <;> simp [step, hl, h, applyUpdate, apply_ite]

/-- Once an error has travelled down the chain, no later event changes
the snapshot cache and the chain stays terminated. -/
theorem errored_step (st : RS V) (e : Ev V)
    (h : st.errored = true) :
    (step st e).cache = st.cache ∧ (step st e).errored = true := by
  have hl : st.live = false := by simp [RS.live, h]
  cases e <;> simp [step, hl, h, applyUpdate, apply_ite]

theorem dead_runFrom (st : RS V) (tr : List (Ev V))
    (h : st.connected = false) :
    (runFrom st tr).cache = st.cache ∧ (runFrom st tr).connected = false := by
  induction tr generalizing st with
  | nil => exact ⟨rfl, h⟩
  | cons e tr ih =>
    have hs := dead_step st e h
    have := ih (step st e) hs.2
    exact ⟨this.1.trans hs.1, this.2⟩

theorem errored_runFrom (st : RS V) (tr : List (Ev V))
    (h : st.errored = true) :
    (runFrom st tr).cache = st.cache ∧ (runFrom st tr).errored = true := by
  induction tr generalizing st with
  | nil => exact ⟨rfl, h⟩
  | cons e tr ih =>
    have hs := errored_step st e h
    have := ih (step st e) hs.2
    exact ⟨this.1.trans hs.1, this.2⟩

theorem step_set_live (st : RS V) (p : Slice V) (h : st.live = true) :
    step st (Ev.set p) = applyUpdate st p := by
  simp [step, h]

theorem runFrom_sets_cache (st : RS V) (ps : List (Slice V)) (h : st.live = true) :
    (runFrom st (ps.map Ev.set)).cache = ps.foldl mergeP st.cache := by
  induction ps generalizing st with
  | nil => rfl
  | cons p ps ih =>
    show (runFrom (step st (Ev.set p)) (ps.map Ev.set)).cache = _
    rw [step_set_live st p h]
    rw [ih (applyUpdate st p) (by rw [applyUpdate_live]; exact h)]
    rfl

theorem lastVal_foldl_acc (k : String) (ps : List (Slice V)) (a : Option V) :
    ps.foldl (fun acc p => match lookupA k p with | some v => some v | none => acc) a =
      match lastVal k ps with | some v => some v | none => a := by
  induction ps generalizing a with
  | nil => rfl
  | cons p ps ih =>
    simp only [List.foldl_cons, lastVal]
    rw [ih, ih]
    cases hv : lookupA k p <;> cases hl : lastVal k ps <;>
      simp [lastVal, hv, hl] at *

theorem lookupA_foldl_mergeP (k : String) (ps : List (Slice V)) (c : Slice V) :
    lookupA k (ps.foldl mergeP c) =
      match lastVal k ps with | some v => some v | none => lookupA k c := by
  induction ps generalizing c with
  | nil => rfl
  | cons p ps ih =>
    simp only [List.foldl_cons]
    rw [ih]
    have hl : lastVal k (p :: ps) =
        match lastVal k ps with
        | some v => some v
        | none => match lookupA k p with | some v => some v | none => none := by
      unfold lastVal
      simp only [List.foldl_cons]
      exact lastVal_foldl_acc k ps _
    rw [hl, lookupA_mergeP]
    cases lastVal k ps <;> cases lookupA k p <;> simp

end Lemmas

/-- C1: for every finite sequence of `set(p1), …, set(pn)` calls on one
container with no other writes, `get()` afterwards equals the left fold
of the partials starting from the empty object, and per key the latest
partial containing that key wins while keys absent from later partials
keep their last written value.  (`set` is synchronous here: each step of
the run applies the update before the next event.) -/
theorem c1_set_fold {V : Type} (ps : List (Slice V)) :
    RS.get (run (ps.map Ev.set)) none = Sum.inl (ps.foldl mergeP []) ∧
    (∀ k : String, lookupA k (run (ps.map Ev.set)).cache = lastVal k ps) := by
  have hc : (run (ps.map Ev.set)).cache = ps.foldl mergeP [] :=
    runFrom_sets_cache init ps rfl
  constructor
  · simp [RS.get, jsTruthy, hc]
  · intro k
    rw [hc, lookupA_foldl_mergeP]
    cases lastVal k ps <;> simp [lookupA]

/-- C8's conclusion: the reduction step is exactly
`next = { ...previous, ...partial }`, which agrees with the previous
snapshot on every key absent from the partial and with the partial on
every key it contains. -/
def MergeFrame (V : Type) (st : RS V) (s p : Slice V) : Prop :=
  (∀ k, k ∉ keysOf p → lookupA k (mergeP s p) = lookupA k s) ∧
  (∀ k, k ∈ keysOf p → lookupA k (mergeP s p) = lookupA k p) ∧
  (step st (Ev.set p)).cache = mergeP st.cache p

/-- C8: applying a partial update only overwrites the keys present in
that update — unrelated keys are never dropped — and the machine's
reduction step on a live container is exactly `{ ...previous, ...p }`. -/
theorem c8_merge_frame {V : Type} (st : RS V) (h : st.live = true) (s p : Slice V) :
    MergeFrame V st s p := by
  refine ⟨?_, ?_, ?_⟩
  · intro k hk
    rw [mem_keysOf_iff] at hk
    have : lookupA k p = none := by
      cases hv : lookupA k p
      · rfl
      · exact absurd (by rw [hv]; rfl) hk
    rw [lookupA_mergeP, this]
  · intro k hk
    rw [mem_keysOf_iff] at hk
    cases hv : lookupA k p
    · rw [hv] at hk; simp at hk
    · rw [lookupA_mergeP, hv]
  · rw [step_set_live st p h, applyUpdate_cache]

/-- Witness for C8 at a concrete input. -/
theorem c8_merge_frame_witness :
    (init : RS Nat).live = true ∧ MergeFrame Nat init [("a", 1)] [("b", 2)] :=
  ⟨rfl, c8_merge_frame init rfl [("a", 1)] [("b", 2)]⟩

section EmitLemmas

variable {V : Type}

theorem applyUpdate_whole (st : RS V) (p : Slice V) :
    (applyUpdate st p).whole = st.whole := rfl

theorem applyUpdate_keyed (st : RS V) (p : Slice V) :
    (applyUpdate st p).keyed = st.keyed := rfl

theorem applyUpdate_invoked (st : RS V) (p : Slice V) :
    (applyUpdate st p).invoked = st.invoked := rfl

theorem step_emit_live (st : RS V) (s : Nat) (p : Slice V)
    (h : st.live = true) (hs : st.whole.contains s = true) :
    step st (Ev.emit s p) = applyUpdate st p := by
  have hm : s ∈ st.whole := by simpa using hs
  simp [step, h, hm]

theorem runFrom_emits_cache (st : RS V) (s : Nat) (ps : List (Slice V))
    (h : st.live = true) (hs : st.whole.contains s = true) :
    (runFrom st (ps.map (Ev.emit s))).cache = ps.foldl mergeP st.cache := by
  induction ps generalizing st with
  | nil => rfl
  | cons p ps ih =>
    show (runFrom (step st (Ev.emit s p)) (ps.map (Ev.emit s))).cache = _
    rw [step_emit_live st s p h hs]
    rw [ih (applyUpdate st p) (by rw [applyUpdate_live]; exact h)
      (by rw [applyUpdate_whole]; exact hs)]
    rfl

end EmitLemmas

/-- C5's conclusion: registering a producer via `connect` and letting it
emit the partials `ps` one by one — with no completion event — folds
every emission into the snapshot in emission order. -/
def ConnectEmissions (V : Type) (st : RS V) (s : Nat) (ps : List (Slice V)) : Prop :=
  (runFrom st (Ev.connect s :: ps.map (Ev.emit s))).cache = ps.foldl mergeP st.cache

/-- The concrete run of C5's example: one connected producer emitting
`{a:1}` then `{a:2}` then `{b:3}`. -/
def c5trace : List (Ev Nat) :=
  [Ev.connect 0, Ev.emit 0 [("a", 1)], Ev.emit 0 [("a", 2)], Ev.emit 0 [("b", 3)]]

/-- C5: every emission of a `connect`-registered producer is applied to
the snapshot independently and in emission order, without waiting for
the producer to complete; in particular a producer emitting `{a:1}`,
`{a:2}`, `{b:3}` leaves `get()` at `{a:2, b:3}`. -/
theorem c5_connect_applies_each_emission {V : Type} (st : RS V)
    (h : st.live = true) (s : Nat) (ps : List (Slice V)) :
    ConnectEmissions V st s ps ∧
    RS.get (run c5trace) (some "a") = Sum.inr (some 2) ∧
    RS.get (run c5trace) (some "b") = Sum.inr (some 3) := by
  refine ⟨?_, by decide, by decide⟩
  show (runFrom (step st (Ev.connect s)) (ps.map (Ev.emit s))).cache = _
  have hc : step st (Ev.connect s) =
      { st with whole := s :: st.whole, invoked := s :: st.invoked } := by
    simp [step, h]
  rw [hc]
  rw [runFrom_emits_cache _ s ps (by simpa [RS.live] using h) (by simp)]

/-- Witness for C5 at a concrete input. -/
theorem c5_connect_applies_each_emission_witness :
    (init : RS Nat).live = true ∧
    (ConnectEmissions Nat init 4 [[("x", 7)], [("y", 8)]] ∧
      RS.get (run c5trace) (some "a") = Sum.inr (some 2) ∧
      RS.get (run c5trace) (some "b") = Sum.inr (some 3)) :=
  ⟨rfl, c5_connect_applies_each_emission init rfl 4 [[("x", 7)], [("y", 8)]]⟩

/-- The concrete run refuting C2: producers 0 and 1 are connected, a
consumer subscribes, producer 0 emits `{a:1}` and then errors, and
producer 1 afterwards emits `{b:2}`. -/
def c2trace : List (Ev Nat) :=
  [Ev.connect 0, Ev.connect 1, Ev.subscribe 7, Ev.emit 0 [("a", 1)],
    Ev.err 0, Ev.emit 1 [("b", 2)]]

/-- C2 refuted at a concrete input: after producer 0 errors, producer
1's later emission `{b:2}` is NOT applied (`mergeAll` forwarded the
inner error, terminating the whole aggregated chain and unsubscribing
every inner producer), the `select()` consumer received the error
notification (its subscription terminated), and `get()` is frozen at the
last-good snapshot `{a:1}`. -/
theorem c2_error_not_isolated :
    lookupA "b" (run c2trace).cache = none ∧
    (run c2trace).errored = true ∧
    (run c2trace).whole = [] ∧
    (run c2trace).cache = [("a", 1)] ∧
    (run c2trace).subs = [⟨7, [[("a", 1)]], true⟩] := by
  decide

/-- The amended C2: an error of any `connect`-registered producer
terminates the WHOLE aggregated stream, not just that producer's
contribution — every producer subscription is torn down, every
`select()` consumer is error-terminated, no later event ever changes the
snapshot again — while `get()` keeps returning the last-good snapshot. -/
def ErrorCollapse (V : Type) (st : RS V) (s : Nat) : Prop :=
  (step st (Ev.err s)).errored = true ∧
  (step st (Ev.err s)).whole = [] ∧
  (step st (Ev.err s)).keyed = [] ∧
  (step st (Ev.err s)).cache = st.cache ∧
  (∀ c ∈ (step st (Ev.err s)).subs, c.terminated = true) ∧
  (∀ tr : List (Ev V), (runFrom (step st (Ev.err s)) tr).cache = st.cache) ∧
  RS.get (step st (Ev.err s)) none = Sum.inl st.cache

/-- C2 as amended: on a live container, a connected producer's error
collapses the aggregated stream as described by `ErrorCollapse`. -/
theorem c2_error_collapses_stream {V : Type} (st : RS V) (s : Nat)
    (h : st.live = true) (hs : st.whole.contains s = true) :
    ErrorCollapse V st s := by
  have he : step st (Ev.err s) =
      { st with
        errored := true
        whole := []
        keyed := []
        subs := st.subs.map (fun c => { c with terminated := true }) } := by
    have hm : s ∈ st.whole := by simpa using hs
    simp [step, h, hm]
  refine ⟨by rw [he], by rw [he], by rw [he], by rw [he], ?_, ?_, by rw [he]; simp [RS.get, jsTruthy]⟩
  · intro c hc
    rw [he] at hc
    simp only [List.mem_map] at hc
    obtain ⟨c0, _, rfl⟩ := hc
    rfl
  · intro tr
    have : (step st (Ev.err s)).errored = true := by rw [he]
    have hr := errored_runFrom (step st (Ev.err s)) tr this
    rw [hr.1, he]

/-- Witness for the amended C2 at a concrete input. -/
theorem c2_error_collapses_stream_witness :
    ((run [Ev.connect 0, Ev.set [("a", 1)]] : RS Nat).live = true ∧
      (run [Ev.connect 0, Ev.set [("a", 1)]] : RS Nat).whole.contains 0 = true) ∧
    ErrorCollapse Nat (run [Ev.connect 0, Ev.set [("a", 1)]]) 0 :=
  ⟨⟨by decide, by decide⟩,
    c2_error_collapses_stream (run [Ev.connect 0, Ev.set [("a", 1)]]) 0
      (by decide) (by decide)⟩

/-- The concrete run refuting C3: effects 0 and 1 are registered via
`hold`, producer 5 is connected; effect 0 errors; afterwards `hold 2` is
called and producer 5 emits `{a:1}`. -/
def c3trace : List (Ev Nat) :=
  [Ev.connect 5, Ev.hold 0, Ev.hold 1, Ev.effErr 0, Ev.hold 2, Ev.emit 5 [("a", 1)]]

/-- C3 refuted at a concrete input: after effect 0 errors, effect 1 is
no longer running and the later `hold 2` does not start its effect (the
error travelled through the effects `mergeAll` and terminated the shared
`effects$.pipe(mergeAll()).subscribe()` subscription).  The state stream
itself IS unaffected: the connected producer still updates the
snapshot. -/
theorem c3_effect_error_stops_other_effects :
    (run c3trace).effActive = [] ∧
    (run c3trace).effAlive = false ∧
    lookupA "a" (run c3trace).cache = some 1 := by
  decide

/-- The amended C3: an effect that errors terminates the shared merged
effects subscription — every other active effect is unsubscribed and
later `hold` registrations are no-ops — while the state pipeline is
untouched: the snapshot, the chain subscription and the connected
producers survive, and a live connected producer still updates the
snapshot.  An effect that merely completes is dropped alone, leaving
`hold` working. -/
def EffectErrorCollapse (V : Type) (st : RS V) (s : Nat) : Prop :=
  (step st (Ev.effErr s)).effAlive = false ∧
  (step st (Ev.effErr s)).effActive = [] ∧
  (∀ s2 : Nat, (step (step st (Ev.effErr s)) (Ev.hold s2)).effActive = []) ∧
  (step st (Ev.effErr s)).cache = st.cache ∧
  (step st (Ev.effErr s)).connected = st.connected ∧
  (step st (Ev.effErr s)).errored = st.errored ∧
  (step st (Ev.effErr s)).whole = st.whole ∧
  (step st (Ev.effErr s)).keyed = st.keyed ∧
  (∀ (q : Nat) (p : Slice V), st.live = true → st.whole.contains q = true →
    (step (step st (Ev.effErr s)) (Ev.emit q p)).cache = mergeP st.cache p) ∧
  (st.effAlive = true →
    (step st (Ev.effCompl s)).effActive = st.effActive.erase s ∧
    (step st (Ev.effCompl s)).effAlive = true)

/-- C3 as amended: on a container whose merged effects subscription is
live, an active effect's error collapses the effect runner but leaves
the state pipeline running, as described by `EffectErrorCollapse`. -/
theorem c3_effect_error_collapses_effects {V : Type} (st : RS V) (s : Nat)
    (ha : st.effAlive = true) (hs : st.effActive.contains s = true) :
    EffectErrorCollapse V st s := by
  have hm : s ∈ st.effActive := by simpa using hs
  have he : step st (Ev.effErr s) = { st with effAlive := false, effActive := [] } := by
    simp [step, ha, hm]
  refine ⟨by rw [he], by rw [he], ?_, by rw [he], by rw [he], by rw [he], by rw [he],
    by rw [he], ?_, ?_⟩
  · intro s2
    rw [he]
    simp [step]
  · intro q p hl hq
    have hq2 : q ∈ st.whole := by simpa using hq
    rw [he]
    have : ({ st with effAlive := false, effActive := [] } : RS V).live = true := by
      simpa [RS.live] using hl
    simp [step, this, hq2, applyUpdate]
  · intro _
    constructor
    · simp [step, ha]
    · simp [step, ha]

/-- Witness for the amended C3 at a concrete input. -/
theorem c3_effect_error_collapses_effects_witness :
    ((run [Ev.hold 0, Ev.hold 1] : RS Nat).effAlive = true ∧
      (run [Ev.hold 0, Ev.hold 1] : RS Nat).effActive.contains 0 = true) ∧
    EffectErrorCollapse Nat (run [Ev.hold 0, Ev.hold 1]) 0 :=
  ⟨⟨by decide, by decide⟩,
    c3_effect_error_collapses_effects (run [Ev.hold 0, Ev.hold 1]) 0
      (by decide) (by decide)⟩

/-- C6's conclusion: once the owning scope has ended (`destroy`), the
container is inert — no later event of ANY kind changes the snapshot,
every producer and effect subscription has been torn down rather than
drained, `set` is a complete no-op, and a second teardown changes
nothing. -/
def DestroyInert (V : Type) (tr tr2 : List (Ev V)) : Prop :=
  (runFrom (run (tr ++ [Ev.destroy])) tr2).cache = (run (tr ++ [Ev.destroy])).cache ∧
  (run (tr ++ [Ev.destroy])).whole = [] ∧
  (run (tr ++ [Ev.destroy])).keyed = [] ∧
  (run (tr ++ [Ev.destroy])).effActive = [] ∧
  (run (tr ++ [Ev.destroy])).effAlive = false ∧
  (run (tr ++ [Ev.destroy])).connected = false ∧
  (∀ p : Slice V, step (run (tr ++ [Ev.destroy])) (Ev.set p) = run (tr ++ [Ev.destroy])) ∧
  step (run (tr ++ [Ev.destroy])) Ev.destroy = run (tr ++ [Ev.destroy])

/-- C6: after scope teardown no update is ever applied again, all
producer and effect subscriptions are unsubscribed, `set` is a no-op and
teardown is idempotent. -/
theorem c6_teardown_inert {V : Type} (tr tr2 : List (Ev V)) : DestroyInert V tr tr2 := by
  have hrun : run (tr ++ [Ev.destroy]) = step (run tr) Ev.destroy := by
    unfold run runFrom
    rw [List.foldl_append]
    rfl
  have hd : step (run tr) Ev.destroy =
      { run tr with
        connected := false
        whole := []
        keyed := []
        effAlive := false
        effActive := []
        destroyed := true } := by
    simp [step]
  refine ⟨?_, by rw [hrun, hd], by rw [hrun, hd], by rw [hrun, hd], by rw [hrun, hd],
    by rw [hrun, hd], ?_, ?_⟩
  · exact (dead_runFrom _ tr2 (by rw [hrun, hd])).1
  · intro p
    have : (run (tr ++ [Ev.destroy])).live = false := by
      simp [RS.live, hrun, hd]
    simp [step, this]
  · rw [hrun, hd]
    simp [step]

/-- The partial update an event makes the chain apply, if any: `set`
always (while the chain is live), a producer emission while its
subscription is live, and a keyed producer emission wrapped as a
single-key object. -/
def updateOf {V : Type} (st : RS V) (e : Ev V) : Option (Slice V) :=
  match e with
  | .set p => if st.live then some p else none
  | .emit s p => if st.live && st.whole.contains s then some p else none
  | .emitVal s v =>
      if st.live then
        match st.keyed.find? (fun en => en.1 == s) with
        | some en => some [(en.2, v)]
        | none => none
      else none
  | _ => none

theorem runFrom_cons {V : Type} (st : RS V) (e : Ev V) (tr : List (Ev V)) :
    runFrom st (e :: tr) = runFrom (step st e) tr := rfl

theorem step_eq_applyUpdate {V : Type} (st : RS V) (e : Ev V) (p : Slice V)
    (h : updateOf st e = some p) : step st e = applyUpdate st p := by
  cases e with
  | set q =>
    simp only [updateOf] at h
    split at h
    · cases h
      simp_all [step]
    · cases h
  | emit s q =>
    simp only [updateOf] at h
    split at h
    · cases h
      simp_all [step]
    · cases h
  | emitVal s v =>
    simp only [updateOf] at h
    split at h
    · split at h
      · cases h
        simp_all [step]
      · cases h
    · cases h
  | connect s => simp only [updateOf] at h; cases h
  | connectKey k s => simp only [updateOf] at h; cases h
  | hold s => simp only [updateOf] at h; cases h
  | err s => simp only [updateOf] at h; cases h
  | compl s => simp only [updateOf] at h; cases h
  | effErr s => simp only [updateOf] at h; cases h
  | effCompl s => simp only [updateOf] at h; cases h
  | subscribe i => simp only [updateOf] at h; cases h
  | unsubscribe i => simp only [updateOf] at h; cases h
  | destroy => simp only [updateOf] at h; cases h

/-- C7's conclusion for one applied update `p`: after the step, the
imperative cache equals the newly reduced snapshot, that same snapshot
is what was just handed to every live `select()` consumer, and for every
truthy key the value `select(key)` emits for this update
(`map(state => state[key])` of the delivered snapshot) equals what
`get(key)` returns immediately after the emission. -/
def SelectGetConsistent (V : Type) (st : RS V) (e : Ev V) (p : Slice V) : Prop :=
  (step st e).cache = mergeP st.cache p ∧
  ((step st e).subs = st.subs.map (fun c =>
    if c.terminated then c
    else { c with delivered := c.delivered ++ [mergeP st.cache p] })) ∧
  (∀ k : String, jsTruthy (some k) = true →
    selectEmits (some k) [mergeP st.cache p] =
      Sum.inr [lookupA k (mergeP st.cache p)] ∧
    RS.get (step st e) (some k) = Sum.inr (lookupA k (mergeP st.cache p)))

/-- C7: the imperative snapshot cache is never stale relative to the
reactive stream — `tap` refreshes `this.state` inside the chain before
the replay subject distributes the very same snapshot, so the value a
`select(key)` consumer receives for an update equals `get(key)`
evaluated immediately after that emission. -/
theorem c7_select_get_consistent {V : Type} (st : RS V) (e : Ev V) (p : Slice V)
    (h : updateOf st e = some p) : SelectGetConsistent V st e p := by
  unfold SelectGetConsistent
  rw [step_eq_applyUpdate st e p h]
  refine ⟨rfl, rfl, ?_⟩
  intro k hk
  constructor
  · simp [selectEmits, hk]
  · simp [RS.get, hk, applyUpdate, mergeP]

/-- Witness for C7 at a concrete input. -/
theorem c7_select_get_consistent_witness :
    updateOf (run [Ev.subscribe 3, Ev.set [("a", 1)]] : RS Nat)
      (Ev.set [("b", 2)]) = some [("b", 2)] ∧
    SelectGetConsistent Nat (run [Ev.subscribe 3, Ev.set [("a", 1)]])
      (Ev.set [("b", 2)]) [("b", 2)] :=
  ⟨by decide,
    c7_select_get_consistent (run [Ev.subscribe 3, Ev.set [("a", 1)]])
      (Ev.set [("b", 2)]) [("b", 2)] (by decide)⟩

section KeyedLemmas

variable {V : Type}

theorem applyUpdate_pair (stA stB : RS V) (p : Slice V)
    (hc : stA.cache = stB.cache) (_hr : stA.replay = stB.replay)
    (hs : stA.subs = stB.subs) :
    (applyUpdate stA p).cache = (applyUpdate stB p).cache ∧
    (applyUpdate stA p).replay = (applyUpdate stB p).replay ∧
    (applyUpdate stA p).subs = (applyUpdate stB p).subs := by
  refine ⟨?_, ?_, ?_⟩ <;> simp [applyUpdate, hc, hs]

theorem keyed_whole_emit_par (k : String) (s : Nat) (vs : List V) :
    ∀ stA stB : RS V,
      stA.live = true → stB.live = true →
      stA.cache = stB.cache → stA.replay = stB.replay → stA.subs = stB.subs →
      stA.invoked = stB.invoked →
      stA.keyed.find? (fun en => en.1 == s) = some (s, k) →
      stB.whole.contains s = true →
      (runFrom stA (vs.map (Ev.emitVal s))).cache =
          (runFrom stB (vs.map (fun v => Ev.emit s [(k, v)]))).cache ∧
        (runFrom stA (vs.map (Ev.emitVal s))).replay =
          (runFrom stB (vs.map (fun v => Ev.emit s [(k, v)]))).replay ∧
        (runFrom stA (vs.map (Ev.emitVal s))).subs =
          (runFrom stB (vs.map (fun v => Ev.emit s [(k, v)]))).subs ∧
        (runFrom stA (vs.map (Ev.emitVal s))).invoked =
          (runFrom stB (vs.map (fun v => Ev.emit s [(k, v)]))).invoked := by
  induction vs with
  | nil => exact fun stA stB _ _ hc hr hs hi _ _ => ⟨hc, hr, hs, hi⟩
  | cons v vs ih =>
    intro stA stB hlA hlB hc hr hs hi hfA hwB
    have hA : step stA (Ev.emitVal s v) = applyUpdate stA [(k, v)] := by
      simp [step, hlA, hfA]
    have hB : step stB (Ev.emit s [(k, v)]) = applyUpdate stB [(k, v)] :=
      step_emit_live stB s [(k, v)] hlB hwB
    simp only [List.map_cons, runFrom_cons, hA, hB]
    have hp := applyUpdate_pair stA stB [(k, v)] hc hr hs
    exact ih (applyUpdate stA [(k, v)]) (applyUpdate stB [(k, v)])
      (by rw [applyUpdate_live]; exact hlA)
      (by rw [applyUpdate_live]; exact hlB)
      hp.1 hp.2.1 hp.2.2
      (by rw [applyUpdate_invoked, applyUpdate_invoked]; exact hi)
      (by rw [applyUpdate_keyed]; exact hfA)
      (by rw [applyUpdate_whole]; exact hwB)

end KeyedLemmas

/-- C9's conclusion: registering `connect(key, producer)` and letting
the producer emit the values `vs` is observationally identical —
snapshot, replay buffer, every consumer's received snapshots, and the
record of producer invocations — to registering `connect` of the
producer with each value wrapped as the single-key object
`{ [key]: value }`. -/
def KeyedConnectEquiv (V : Type) (st : RS V) (k : String) (s : Nat) (vs : List V) : Prop :=
  (runFrom st (Ev.connectKey k s :: vs.map (Ev.emitVal s))).cache =
    (runFrom st (Ev.connect s :: vs.map (fun v => Ev.emit s [(k, v)]))).cache ∧
  (runFrom st (Ev.connectKey k s :: vs.map (Ev.emitVal s))).replay =
    (runFrom st (Ev.connect s :: vs.map (fun v => Ev.emit s [(k, v)]))).replay ∧
  (runFrom st (Ev.connectKey k s :: vs.map (Ev.emitVal s))).subs =
    (runFrom st (Ev.connect s :: vs.map (fun v => Ev.emit s [(k, v)]))).subs ∧
  (runFrom st (Ev.connectKey k s :: vs.map (Ev.emitVal s))).invoked =
    (runFrom st (Ev.connect s :: vs.map (fun v => Ev.emit s [(k, v)]))).invoked

/-- C9: `connect(key, producer)` behaves exactly like `connect` of the
producer mapped through `value => ({ [key]: value })`: both runs apply
identical sequences of partial updates and yield identical snapshots,
replay buffers and consumer deliveries. -/
theorem c9_keyed_connect_equiv {V : Type} (st : RS V) (h : st.live = true)
    (k : String) (s : Nat) (vs : List V) : KeyedConnectEquiv V st k s vs := by
  have hA : step st (Ev.connectKey k s) =
      { st with keyed := (s, k) :: st.keyed, invoked := s :: st.invoked } := by
    simp [step, h]
  have hB : step st (Ev.connect s) =
      { st with whole := s :: st.whole, invoked := s :: st.invoked } := by
    simp [step, h]
  have := keyed_whole_emit_par k s vs
    ({ st with keyed := (s, k) :: st.keyed, invoked := s :: st.invoked })
    ({ st with whole := s :: st.whole, invoked := s :: st.invoked })
    (by simpa [RS.live] using h) (by simpa [RS.live] using h)
    rfl rfl rfl rfl (by simp [List.find?]) (by simp)
  have e1 : runFrom st (Ev.connectKey k s :: vs.map (Ev.emitVal s)) =
      runFrom ({ st with keyed := (s, k) :: st.keyed, invoked := s :: st.invoked })
        (vs.map (Ev.emitVal s)) := by
    show runFrom (step st (Ev.connectKey k s)) _ = _
    rw [hA]
  have e2 : runFrom st (Ev.connect s :: vs.map (fun v => Ev.emit s [(k, v)])) =
      runFrom ({ st with whole := s :: st.whole, invoked := s :: st.invoked })
        (vs.map (fun v => Ev.emit s [(k, v)])) := by
    show runFrom (step st (Ev.connect s)) _ = _
    rw [hB]
  unfold KeyedConnectEquiv
  rw [e1, e2]
  exact this

/-- Witness for C9 at a concrete input. -/
theorem c9_keyed_connect_equiv_witness :
    (init : RS Nat).live = true ∧ KeyedConnectEquiv Nat init "a" 0 [1, 2] :=
  ⟨rfl, c9_keyed_connect_equiv init rfl "a" 0 [1, 2]⟩

/-- The producer-side portion of the container state: everything except
the list of attached `select()` consumers. -/
structure Core (V : Type) where
  cache : Slice V
  replay : Option (Slice V)
  whole : List Nat
  keyed : List (Nat × String)
  invoked : List Nat
  effActive : List Nat
  effAlive : Bool
  connected : Bool
  errored : Bool
  destroyed : Bool
deriving DecidableEq

/-- Forget the consumer list of a container state. -/
def RS.core {V : Type} (st : RS V) : Core V :=
  ⟨st.cache, st.replay, st.whole, st.keyed, st.invoked, st.effActive,
    st.effAlive, st.connected, st.errored, st.destroyed⟩

/-- Events caused by `select()` consumers attaching or detaching. -/
def isConsumerEv {V : Type} : Ev V → Bool
  | .subscribe _ => true
  | .unsubscribe _ => true
  | _ => false

theorem core_step_consumer {V : Type} (st : RS V) (e : Ev V)
    (he : isConsumerEv e = true) : (step st e).core = st.core := by
  cases e <;> simp [isConsumerEv] at he <;> simp [step, RS.core]

theorem core_step_congr {V : Type} (st₁ st₂ : RS V) (e : Ev V)
    (h : st₁.core = st₂.core) : (step st₁ e).core = (step st₂ e).core := by
  obtain ⟨c1, r1, w1, k1, i1, ea1, al1, co1, er1, d1, sb1⟩ := st₁
  obtain ⟨c2, r2, w2, k2, i2, ea2, al2, co2, er2, d2, sb2⟩ := st₂
  simp only [RS.core, Core.mk.injEq] at h
  obtain ⟨h1, h2, h3, h4, h5, h6, h7, h8, h9, h10⟩ := h
  subst h1 h2 h3 h4 h5 h6 h7 h8 h9 h10
  cases e <;> simp only [step, RS.live] <;> (repeat' split) <;>
    simp [applyUpdate, RS.core]

theorem core_filter_consumers {V : Type} (tr : List (Ev V)) :
    ∀ st₁ st₂ : RS V, st₁.core = st₂.core →
      (runFrom st₁ tr).core =
        (runFrom st₂ (tr.filter (fun e => !isConsumerEv e))).core := by
  induction tr with
  | nil => exact fun st₁ st₂ h => h
  | cons e tr ih =>
    intro st₁ st₂ h
    cases he : isConsumerEv e
    · rw [List.filter_cons_of_pos (by simp [he])]
      exact ih (step st₁ e) (step st₂ e) (core_step_congr st₁ st₂ e h)
    · rw [List.filter_cons_of_neg (by simp [he])]
      exact ih (step st₁ e) st₂ ((core_step_consumer st₁ e he).trans h)

theorem step_cache_replay {V : Type} (st : RS V) (e : Ev V) :
    (∃ p, (step st e).cache = mergeP st.cache p ∧
      (step st e).replay = some (mergeP st.cache p)) ∨
    ((step st e).cache = st.cache ∧ (step st e).replay = st.replay) := by
  cases e <;> simp only [step] <;> (repeat' split) <;>
    first
    | (left; exact ⟨_, rfl, rfl⟩)
    | (right; constructor <;> trivial)

theorem replay_eq_cache {V : Type} (tr : List (Ev V)) :
    ∀ n, (run tr).replay = some n → (run tr).cache = n := by
  suffices h : ∀ st : RS V, (∀ n, st.replay = some n → st.cache = n) →
      ∀ n, (runFrom st tr).replay = some n → (runFrom st tr).cache = n by
    exact h init (fun n hn => by cases hn)
  induction tr with
  | nil => exact fun st h => h
  | cons e tr ih =>
    intro st h
    refine ih (step st e) (fun n hn => ?_)
    rcases step_cache_replay st e with ⟨p, hc, hr⟩ | ⟨hc, hr⟩
    · rw [hr] at hn
      cases hn
      exact hc
    · rw [hr] at hn
      rw [hc]
      exact h n hn

/-- C4: the multicast contract of
`connectable(…, { connector: () => new ReplaySubject(1) })` with the
single `connect()` made in the constructor.  (1) Everything on the
producer side of the replay subject — snapshot, replay buffer, live
producer subscriptions, and the record of producer invocations, hence in
particular how often each connected producer was subscribed — is exactly
what it would be with every consumer attach/detach event erased from the
trace: consumers never re-trigger upstream work.  (2) A consumer
attaching after at least one applied update immediately receives the
current snapshot as its first delivered value.  (3) Every applied update
is delivered to every attached, non-terminated consumer. -/
theorem c4_multicast_replay {V : Type} :
    (∀ tr : List (Ev V),
      (run tr).core = (run (tr.filter (fun e => !isConsumerEv e))).core) ∧
    (∀ (tr : List (Ev V)) (i : Nat) (n : Slice V),
      (run tr).replay = some n →
      n = (run tr).cache ∧
      step (run tr) (Ev.subscribe i) =
        { run tr with subs := (run tr).subs ++ [⟨i, [n], (run tr).errored⟩] }) ∧
    (∀ (st : RS V) (e : Ev V) (p : Slice V), updateOf st e = some p →
      (step st e).subs = st.subs.map (fun c =>
        if c.terminated then c
        else { c with delivered := c.delivered ++ [mergeP st.cache p] })) := by
  refine ⟨?_, ?_, ?_⟩
  · intro tr
    exact core_filter_consumers tr init init rfl
  · intro tr i n hn
    refine ⟨(replay_eq_cache tr n hn).symm, ?_⟩
    simp [step, hn]
  · intro st e p h
    rw [step_eq_applyUpdate st e p h]
    rfl

/-- Witness for C4 at a concrete input: a consumer subscribing after two
`set` updates gets the folded snapshot `{a:1, b:2}` as its first value. -/
theorem c4_multicast_replay_witness :
    (run [Ev.set [("a", 1)], Ev.set [("b", 2)]] : RS Nat).replay =
      some [("a", 1), ("b", 2)] ∧
    ([("a", 1), ("b", 2)] : Slice Nat) =
      (run [Ev.set [("a", 1)], Ev.set [("b", 2)]]).cache ∧
    step (run [Ev.set [("a", 1)], Ev.set [("b", 2)]]) (Ev.subscribe 5) =
      { run [Ev.set [("a", 1)], Ev.set [("b", 2)]] with
        subs := (run [Ev.set [("a", 1)], Ev.set [("b", 2)]]).subs ++
          [⟨5, [[("a", 1), ("b", 2)]],
            (run [Ev.set [("a", 1)], Ev.set [("b", 2)]]).errored⟩] } :=
  ⟨by decide,
    (c4_multicast_replay (V := Nat)).2.1 [Ev.set [("a", 1)], Ev.set [("b", 2)]] 5
      [("a", 1), ("b", 2)] (by decide)⟩

/-- Whether an event can possibly write the key `k`: a literal or
emitted partial containing `k`, or the registration of a keyed producer
for `k`. -/
def mentionsKey {V : Type} (k : String) : Ev V → Bool
  | .set p => (keysOf p).contains k
  | .emit _ p => (keysOf p).contains k
  | .connectKey k2 _ => k2 == k
  | _ => false

theorem lookupA_absent {V : Type} (k : String) (p : Slice V)
    (h : (keysOf p).contains k = false) : lookupA k p = none := by
  cases hv : lookupA k p with
  | none => rfl
  | some v =>
    have : k ∈ keysOf p := (mem_keysOf_iff k p).2 (by rw [hv]; rfl)
    exact absurd this (by simpa using h)

theorem lookupA_mergeP_absent {V : Type} (k : String) (c p : Slice V)
    (hc : lookupA k c = none) (hp : lookupA k p = none) :
    lookupA k (mergeP c p) = none := by
  rw [lookupA_mergeP, hp]
  exact hc

theorem unwritten_key_step {V : Type} (k : String) (st : RS V) (e : Ev V)
    (h1 : lookupA k st.cache = none) (h2 : ∀ en ∈ st.keyed, en.2 ≠ k)
    (hme : mentionsKey k e = false) :
    lookupA k (step st e).cache = none ∧ (∀ en ∈ (step st e).keyed, en.2 ≠ k) := by
  cases e with
  | set p =>
    simp only [mentionsKey] at hme
    simp only [step]
    split
    · exact ⟨lookupA_mergeP_absent k st.cache p h1 (lookupA_absent k p hme), h2⟩
    · exact ⟨h1, h2⟩
  | emit s p =>
    simp only [mentionsKey] at hme
    simp only [step]
    split
    · exact ⟨lookupA_mergeP_absent k st.cache p h1 (lookupA_absent k p hme), h2⟩
    · exact ⟨h1, h2⟩
  | emitVal s v =>
    simp only [step]
    split
    · split
      · rename_i en hf
        have hmem : en ∈ st.keyed := List.mem_of_find?_eq_some hf
        have hne : en.2 ≠ k := h2 en hmem
        refine ⟨lookupA_mergeP_absent k st.cache [(en.2, v)] h1 ?_, h2⟩
        simp [lookupA, hne]
      · exact ⟨h1, h2⟩
    · exact ⟨h1, h2⟩
  | connectKey k2 s =>
    simp only [mentionsKey, beq_eq_false_iff_ne, ne_eq] at hme
    simp only [step]
    split
    · refine ⟨h1, ?_⟩
      intro en hen
      rcases List.mem_cons.1 hen with rfl | hen
      · exact hme
      · exact h2 en hen
    · exact ⟨h1, h2⟩
  | connect s =>
    simp only [step]
    split <;> exact ⟨h1, h2⟩
  | hold s =>
    simp only [step]
    split <;> exact ⟨h1, h2⟩
  | err s =>
    simp only [step]
    split
    · exact ⟨h1, by intro en hen; cases hen⟩
    · exact ⟨h1, h2⟩
  | compl s =>
    simp only [step]
    split
    · refine ⟨h1, ?_⟩
      intro en hen
      exact h2 en (List.mem_of_mem_filter hen)
    · exact ⟨h1, h2⟩
  | effErr s =>
    simp only [step]
    split <;> exact ⟨h1, h2⟩
  | effCompl s =>
    simp only [step]
    split <;> exact ⟨h1, h2⟩
  | subscribe i => exact ⟨h1, h2⟩
  | unsubscribe i => exact ⟨h1, h2⟩
  | destroy => exact ⟨h1, by intro en hen; cases hen⟩

theorem unwritten_key_run {V : Type} (k : String) (tr : List (Ev V))
    (hm : ∀ e ∈ tr, mentionsKey k e = false) :
    lookupA k (run tr).cache = none := by
  suffices h : ∀ st : RS V, lookupA k st.cache = none →
      (∀ en ∈ st.keyed, en.2 ≠ k) →
      (∀ e ∈ tr, mentionsKey k e = false) →
      lookupA k (runFrom st tr).cache = none ∧
        (∀ en ∈ (runFrom st tr).keyed, en.2 ≠ k) by
    exact (h init rfl (by intro en hen; cases hen) hm).1
  clear hm
  induction tr with
  | nil => exact fun st h1 h2 _ => ⟨h1, h2⟩
  | cons e tr ih =>
    intro st h1 h2 hm
    have hs := unwritten_key_step k st e h1 h2 (hm e (List.mem_cons_self e tr))
    exact ih (step st e) hs.1 hs.2 (fun e2 he2 => hm e2 (List.mem_cons_of_mem e he2))

/-- C10's conclusion: `get` and `select` dispatch on JS truthiness of
their argument, so the empty-string key (falsy) makes `get` return the
whole snapshot object and `select` return the full snapshot stream, just
as an absent argument does; a truthy key selects the key's field, and a
truthy key that no processed event ever wrote yields `undefined`. -/
def TruthyDispatch (V : Type) (st : RS V) (ds : List (Slice V))
    (tr : List (Ev V)) (k : String) : Prop :=
  RS.get st (some "") = Sum.inl st.cache ∧
  RS.get st none = Sum.inl st.cache ∧
  selectEmits (some "") ds = Sum.inl ds ∧
  selectEmits (V := V) none ds = Sum.inl ds ∧
  RS.get st (some k) = Sum.inr (lookupA k st.cache) ∧
  selectEmits (some k) ds = Sum.inr (ds.map (fun s => lookupA k s)) ∧
  RS.get (run tr) (some k) = Sum.inr none

/-- C10: `get` and `select` test the truthiness of their argument, not
its presence — a falsy key (the empty string) behaves like no argument
at all, returning the whole snapshot / full snapshot stream — while a
truthy, never-written key reads as `undefined`. -/
theorem c10_truthy_dispatch {V : Type} (st : RS V) (ds : List (Slice V))
    (tr : List (Ev V)) (k : String)
    (hk : jsTruthy (some k) = true)
    (hm : ∀ e ∈ tr, mentionsKey k e = false) :
    TruthyDispatch V st ds tr k := by
  have hempty : jsTruthy (some "") = false := by decide
  refine ⟨?_, ?_, ?_, ?_, ?_, ?_, ?_⟩
  · simp [RS.get, hempty]
  · simp [RS.get, jsTruthy]
  · simp [selectEmits, hempty]
  · simp [selectEmits, jsTruthy]
  · simp [RS.get, hk]
  · simp [selectEmits, hk]
  · rw [show RS.get (run tr) (some k) = Sum.inr (lookupA k (run tr).cache) by
      simp [RS.get, hk]]
    rw [unwritten_key_run k tr hm]

/-- Witness for C10 at a concrete input: after `set({a:1})` and a keyed
`connect("c", …)`, the never-written truthy key `"b"` reads as
`undefined`, while the falsy empty-string key returns the whole
snapshot. -/
theorem c10_truthy_dispatch_witness :
    (jsTruthy (some "b") = true ∧
      (∀ e ∈ [Ev.set [("a", 1)], Ev.connectKey "c" 2],
        mentionsKey "b" e = false)) ∧
    TruthyDispatch Nat (run [Ev.set [("a", 1)]]) [[("a", 1)]]
      [Ev.set [("a", 1)], Ev.connectKey "c" 2] "b" :=
  ⟨⟨by decide, by decide⟩,
    c10_truthy_dispatch (run [Ev.set [("a", 1)]]) [[("a", 1)]]
      [Ev.set [("a", 1)], Ev.connectKey "c" 2] "b" (by decide) (by decide)⟩

end RxState
